import Mathlib

/-
Verification development for the ibmethods-demos repository.

Two components are embedded from the source notebooks:

1. The finite-difference discretization utilities: the `discretise`
   function (identity / first derivative / second derivative matrices
   under "periodic", "dirichlet" or "neumann" boundary conditions), the
   fourth-derivative matrix builder `d4dx4_mat`, and the generalized
   eigensolver post-processing `myeig`.  Floating-point scalars are
   modelled as rationals where the source arithmetic is rational in its
   inputs (linspace points, stencil coefficients), and as reals where the
   source genuinely needs `sqrt` (the eigenvector rescaling in `myeig`).
   Matrices are total functions `Fin nx → Fin nx → ℚ`; the `np.roll`
   based periodic stencils become index arithmetic modulo `nx`.  Python
   exceptions (IndexError on `xs[1]`, ValueError from broadcasting a
   4- or 5-element stencil into a shorter row, ValueError for an unknown
   boundary-condition tag) are modelled by `Option`, returning `none`.

2. The continuous-time Markov process simulator `evolution`, in its two
   variants: the `tspan`/`maxrate` variant (part_003 of the source) and
   the `ts`/`resample` variant (part_004).  The random exponential draws
   are modelled by an oracle `rng : ℕ → S → ℚ → ℚ` giving, for each step
   index and candidate state, the value drawn at a requested scale (the
   code calls `np.random.exponential(1/rate)`, whose argument is the
   scale, i.e. the mean).  The unbounded `while` loop is embedded with
   explicit fuel; `Halt.fuelOut` marks exhaustion of fuel, the other
   `Halt` tags correspond to the three exits of the source loop.
   Python dicts are association lists in insertion order; `min`/`max`
   with a key function keep the first optimum, which the `foldl`s below
   reproduce exactly.
-/

/-- Halting reasons for the embedded event-driven simulation loop. -/
inductive Halt where
  | timeUp
  | absorbed
  | ceiling
  | fuelOut
deriving DecidableEq

/-- Model of the dict comprehension
    times_to_move = \x7bk: np.random.exponential(1/transitions[k]) for k in transitions\x7d:
    each candidate k with rate r gets the oracle draw d k (1/r). -/
def sampleTimes {S : Type} (d : S → ℚ → ℚ) (pos : List (S × ℚ)) : List (S × ℚ) :=
  pos.map (fun p => (p.1, d p.1 (1 / p.2)))

/-- Model of Python min over a dict with a key function: scan left to
    right, replacing the current optimum only on a strictly smaller key,
    so the first minimum wins ties. -/
def pickMin {S : Type} (best c : S × ℚ) : S × ℚ :=
  if c.2 < best.2 then c else best

/-- Model of new_state = min(times_to_move, key=...) together with
    time_elapsed = times_to_move[new_state]: returns the (state, waiting
    time) pair with the smallest sampled waiting time, none on an empty
    candidate list. -/
def gillespieStep {S : Type} (d : S → ℚ → ℚ) (pos : List (S × ℚ)) : Option (S × ℚ) :=
  match sampleTimes d pos with
  | [] => none
  | q :: qs => some (qs.foldl pickMin q)

/-- Loop body of evolution from part_003 (tspan / maxrate variant),
    with explicit fuel.  Mirrors, in order: the while t < tmax guard;
    transitions = fun(t, state); the rate > 0 filter with its absorbing
    break; the truthiness-guarded maxrate filter (rates kept only when
    strictly below maxrate) with its warning break; the exponential race
    and the appends to ts and history.  The Bool records whether
    warnings.warn was reached. -/
def evo3Loop {S : Type} (f : ℚ → S → List (S × ℚ)) (tmax maxrate : ℚ)
    (rng : ℕ → S → ℚ → ℚ) :
    ℕ → ℕ → ℚ → S → List (ℚ × S) → List (ℚ × S) × Bool × Halt
  | 0, _, _, _, acc => (acc, false, Halt.fuelOut)
  | fuel + 1, n, t, s, acc =>
    if t < tmax then
      if ((f t s).filter (fun p => 0 < p.2)).isEmpty then (acc, false, Halt.absorbed)
      else
        match gillespieStep (rng n)
            (if maxrate = 0 then (f t s).filter (fun p => 0 < p.2)
             else ((f t s).filter (fun p => 0 < p.2)).filter (fun p => p.2 < maxrate)) with
        | none => (acc, true, Halt.ceiling)
        | some (s2, w) =>
            evo3Loop f tmax maxrate rng fuel (n + 1) (t + w) s2 (acc ++ [(t + w, s2)])
    else (acc, false, Halt.timeUp)

/-- Model of evolution(fun, tspan, state0, maxrate=...) from part_003:
    t starts at tmin, and ts = [t], history = [state0] make the initial
    trajectory entry (tmin, state0). -/
def evolution3 {S : Type} (f : ℚ → S → List (S × ℚ)) (tmin tmax : ℚ) (state0 : S)
    (maxrate : ℚ) (rng : ℕ → S → ℚ → ℚ) (fuel : ℕ) : List (ℚ × S) × Bool × Halt :=
  evo3Loop f tmax maxrate rng fuel 0 tmin state0 [(tmin, state0)]

/-- Loop body of evolution from part_004 (ts / resample variant), with
    explicit fuel: no maxrate ceiling, otherwise the same race. -/
def evo4Loop {S : Type} (f : ℚ → S → List (S × ℚ)) (tmax : ℚ)
    (rng : ℕ → S → ℚ → ℚ) :
    ℕ → ℕ → ℚ → S → List (ℚ × S) → List (ℚ × S) × Halt
  | 0, _, _, _, acc => (acc, Halt.fuelOut)
  | fuel + 1, n, t, s, acc =>
    if t < tmax then
      match gillespieStep (rng n) ((f t s).filter (fun p => 0 < p.2)) with
      | none => (acc, Halt.absorbed)
      | some (s2, w) =>
          evo4Loop f tmax rng fuel (n + 1) (t + w) s2 (acc ++ [(t + w, s2)])
    else (acc, Halt.timeUp)

/-- Model of evolution(fun, ts, state0) from part_004 with ts a list:
    t starts at ts[0] and tmax is ts[-1], but the initial history entry
    is hardcoded as [0, state0] in the source.  ts = [] is an index
    error, modelled as none. -/
def evolution4 {S : Type} (f : ℚ → S → List (S × ℚ)) (ts : List ℚ) (state0 : S)
    (rng : ℕ → S → ℚ → ℚ) (fuel : ℕ) : Option (List (ℚ × S) × Halt) :=
  match ts with
  | [] => none
  | t0 :: rest =>
      some (evo4Loop f ((t0 :: rest).getLastD t0) rng fuel 0 t0 state0 [(0, state0)])

/-- Model of last_event = max([h for h in history if h[0] <= t], key=...)
    from the resample branch of part_004: Python max keeps the first
    optimum, and max of an empty list raises, modelled as none. -/
def lastEventLE {S : Type} (history : List (ℚ × S)) (t : ℚ) : Option (ℚ × S) :=
  match history.filter (fun h => h.1 ≤ t) with
  | [] => none
  | h :: rest => some (rest.foldl (fun best c => if best.1 < c.1 then c else best) h)

/-- Model of the resample loop of part_004: for each query time t, emit
    (t, state of the most recent event at or before t). -/
def resample {S : Type} (history : List (ℚ × S)) : List ℚ → Option (List (ℚ × S))
  | [] => some []
  | t :: qs =>
    match lastEventLE history t, resample history qs with
    | some e, some l => some ((t, e.2) :: l)
    | _, _ => none

/-- Pure-decay transition function from the spec's absorption property:
    at state n the only candidate is n - 1 at rate n. -/
def decayFun : ℚ → ℤ → List (ℤ × ℚ) := fun _ n => [(n - 1, (n : ℚ))]

/-- Model of np.eye(nx). -/
def eyeMat (nx : ℕ) : Fin nx → Fin nx → ℚ := fun i j =>
  if i = j then 1 else 0

/-- Model of (np.roll(eye, 1, 1) - np.roll(eye, -1, 1)) / (2*dx):
    np.roll(eye, 1, 1) has entry (i, j) equal to eye[i, (j-1) mod nx],
    that is 1 exactly when j is congruent to i+1 mod nx, and the -1 roll
    puts the 1 at j congruent to i-1 mod nx.  Overlapping shifts at
    small nx add, which the sum of indicator terms reproduces. -/
def ddxPer (nx : ℕ) (dx : ℚ) : Fin nx → Fin nx → ℚ := fun i j =>
  ((if ((i : ℕ) + 1) % nx = (j : ℕ) then (1 : ℚ) else 0)
    - (if ((i : ℕ) + (nx - 1)) % nx = (j : ℕ) then 1 else 0)) / (2 * dx)

/-- Model of (np.roll(eye, 1, 1) - 2*eye + np.roll(eye, -1, 1)) / (dx*dx). -/
def d2dx2Per (nx : ℕ) (dx : ℚ) : Fin nx → Fin nx → ℚ := fun i j =>
  ((if ((i : ℕ) + 1) % nx = (j : ℕ) then (1 : ℚ) else 0)
    - 2 * (if i = j then 1 else 0)
    + (if ((i : ℕ) + (nx - 1)) % nx = (j : ℕ) then 1 else 0)) / (dx * dx)

/-- Row written by ddx[0, 4:] = 0; ddx[0, :4] = (-11/6, 3, -3/2, 1/3) / dx. -/
def d1fwdRow (dx : ℚ) (j : ℕ) : ℚ :=
  (if j = 0 then -11/6 else if j = 1 then 3 else if j = 2 then -3/2
   else if j = 3 then 1/3 else 0) / dx

/-- Row written by ddx[-1, :-4] = 0; ddx[-1, -4:] = (-1/3, 3/2, -3, 11/6) / dx. -/
def d1bwdRow (nx : ℕ) (dx : ℚ) (j : ℕ) : ℚ :=
  (if j = nx - 4 then -1/3 else if j = nx - 3 then 3/2 else if j = nx - 2 then -3
   else if j = nx - 1 then 11/6 else 0) / dx

/-- Row written by d2dx2[0, 4:] = 0; d2dx2[0, :4] = (2, -5, 4, -1) / (dx*dx). -/
def d2fwdRow (dx : ℚ) (j : ℕ) : ℚ :=
  (if j = 0 then 2 else if j = 1 then -5 else if j = 2 then 4
   else if j = 3 then -1 else 0) / (dx * dx)

/-- Row written by d2dx2[-1, :-4] = 0; d2dx2[-1, -4:] = (-1, 4, -5, 2) / (dx*dx). -/
def d2bwdRow (nx : ℕ) (dx : ℚ) (j : ℕ) : ℚ :=
  (if j = nx - 4 then -1 else if j = nx - 3 then 4 else if j = nx - 2 then -5
   else if j = nx - 1 then 2 else 0) / (dx * dx)

/-- First-derivative matrix after the dirichlet (and neumann) boundary-row
    overwrites of discretise: one-sided stencils in rows 0 and nx-1,
    the central stencil elsewhere. -/
def dirDdx (nx : ℕ) (dx : ℚ) : Fin nx → Fin nx → ℚ := fun i j =>
  if (i : ℕ) = 0 then d1fwdRow dx (j : ℕ)
  else if (i : ℕ) = nx - 1 then d1bwdRow nx dx (j : ℕ)
  else ddxPer nx dx i j

/-- Second-derivative matrix after the dirichlet (and neumann)
    boundary-row overwrites of discretise. -/
def dirD2dx2 (nx : ℕ) (dx : ℚ) : Fin nx → Fin nx → ℚ := fun i j =>
  if (i : ℕ) = 0 then d2fwdRow dx (j : ℕ)
  else if (i : ℕ) = nx - 1 then d2bwdRow nx dx (j : ℕ)
  else d2dx2Per nx dx i j

/-- Identity matrix after the neumann-branch mutations of discretise:
    eye[0, 0] = dx*dx; eye[-1, -1] = dx*dx, all other entries untouched. -/
def neuEye (nx : ℕ) (dx : ℚ) : Fin nx → Fin nx → ℚ := fun i j =>
  if (i : ℕ) = 0 ∧ (j : ℕ) = 0 then dx * dx
  else if (i : ℕ) = nx - 1 ∧ (j : ℕ) = nx - 1 then dx * dx
  else if i = j then 1 else 0

/-- Return value of discretise: the sample points, the spacing, and the
    identity, first- and second-derivative matrices. -/
structure Disc (nx : ℕ) where
  xs : Fin nx → ℚ
  dx : ℚ
  eye : Fin nx → Fin nx → ℚ
  ddx : Fin nx → Fin nx → ℚ
  d2dx2 : Fin nx → Fin nx → ℚ

/-- Model of discretise(xa, xb, nx, bcs) from part_000.  np.linspace
    gives xs[i] = xa + i*(xb - xa)/(nx - 1) and dx = xs[1] - xs[0];
    reading xs[1] is an IndexError for nx < 2, and the four-element
    boundary stencil assignments of the dirichlet and neumann branches
    are broadcast errors for nx < 4; an unknown tag raises ValueError.
    All three failures are modelled as none.  No other validation is
    performed: in particular xa >= xb is accepted. -/
def discretise (xa xb : ℚ) (nx : ℕ) (bcs : String) : Option (Disc nx) :=
  if 2 ≤ nx then
    let dx : ℚ := (xb - xa) / ((nx : ℚ) - 1)
    let xs : Fin nx → ℚ := fun i => xa + ((i : ℕ) : ℚ) * (xb - xa) / ((nx : ℚ) - 1)
    if bcs = "periodic" then
      some ⟨xs, dx, eyeMat nx, ddxPer nx dx, d2dx2Per nx dx⟩
    else if bcs = "dirichlet" then
      if 4 ≤ nx then some ⟨xs, dx, eyeMat nx, dirDdx nx dx, dirD2dx2 nx dx⟩ else none
    else if bcs = "neumann" then
      if 4 ≤ nx then some ⟨xs, dx, neuEye nx dx, dirDdx nx dx, dirD2dx2 nx dx⟩ else none
    else none
  else none

/-- Sample points of a successful discretise call, 0 on failure. -/
def discXs (xa xb : ℚ) (nx : ℕ) (bcs : String) : Fin nx → ℚ :=
  ((discretise xa xb nx bcs).map Disc.xs).getD (fun _ => 0)

/-- Spacing of a successful discretise call, 0 on failure. -/
def discDx (xa xb : ℚ) (nx : ℕ) (bcs : String) : ℚ :=
  ((discretise xa xb nx bcs).map Disc.dx).getD 0

/-- Identity matrix of a successful discretise call, 0 on failure. -/
def discEye (xa xb : ℚ) (nx : ℕ) (bcs : String) : Fin nx → Fin nx → ℚ :=
  ((discretise xa xb nx bcs).map Disc.eye).getD (fun _ _ => 0)

/-- Wrapped fourth-derivative stencil
    (np.roll(eye,2,1) - 4 np.roll(eye,1,1) + 6 eye - 4 np.roll(eye,-1,1)
     + np.roll(eye,-2,1)) / dx**4. -/
def d4Per (nx : ℕ) (dx : ℚ) : Fin nx → Fin nx → ℚ := fun i j =>
  ((if ((i : ℕ) + 2) % nx = (j : ℕ) then (1 : ℚ) else 0)
    - 4 * (if ((i : ℕ) + 1) % nx = (j : ℕ) then 1 else 0)
    + 6 * (if i = j then 1 else 0)
    - 4 * (if ((i : ℕ) + (nx - 1)) % nx = (j : ℕ) then 1 else 0)
    + (if ((i : ℕ) + (nx - 2)) % nx = (j : ℕ) then 1 else 0)) / dx ^ 4

/-- Row written by d4dx4[0, :] = 0; d4dx4[0, :5] = (1, -4, 6, -4, 1) / dx**4. -/
def d4Row0 (dx : ℚ) (j : ℕ) : ℚ :=
  (if j = 0 then 1 else if j = 1 then -4 else if j = 2 then 6
   else if j = 3 then -4 else if j = 4 then 1 else 0) / dx ^ 4

/-- Model of d4dx4_mat(nx, dx, bcs) from part_000: dirichlet writes the
    five-point stencil into row 0 and zeroes rows 1, nx-2 and nx-1
    (the row-0 slice assignment needs nx >= 5, else a broadcast error,
    modelled as none); periodic returns the wrapped stencil; any other
    tag raises, modelled as none. -/
def d4dx4_mat (nx : ℕ) (dx : ℚ) (bcs : String) : Option (Fin nx → Fin nx → ℚ) :=
  if bcs = "dirichlet" then
    if 5 ≤ nx then
      some (fun i j =>
        if (i : ℕ) = 0 then d4Row0 dx (j : ℕ)
        else if (i : ℕ) = 1 ∨ (i : ℕ) = nx - 2 ∨ (i : ℕ) = nx - 1 then 0
        else d4Per nx dx i j)
    else none
  else if bcs = "periodic" then some (d4Per nx dx)
  else none

/-- Matrix of a successful d4dx4_mat call, 0 on failure. -/
def d4mat (nx : ℕ) (dx : ℚ) (bcs : String) : Fin nx → Fin nx → ℚ :=
  (d4dx4_mat nx dx bcs).getD (fun _ _ => 0)

/-- Stable insertion into a list: a goes before the first element whose
    key is not smaller, so elements with equal keys keep their relative
    order.  This is the insertion step of a stable ascending sort. -/
def sIns {α K : Type} [LinearOrder K] (key : α → K) (a : α) : List α → List α
  | [] => [a]
  | b :: l => if key a ≤ key b then a :: b :: l else b :: sIns key a l

/-- Stable ascending insertion sort by a key function, the behaviour of
    Python sorted(range(nx), key=...) used by myeig. -/
def sSort {α K : Type} [LinearOrder K] (key : α → K) : List α → List α
  | [] => []
  | a :: l => sIns key a (sSort key l)

/-- Multiplication of one eigenpair's eigenvector by sqrt(nx), the
    rescaling eigvecs[:, ordering] * sqrt(nx) of myeig; the eigenvalue
    component is untouched. -/
noncomputable def scaleVec (nx : ℕ) (p : ℂ × List ℂ) : ℂ × List ℂ :=
  (p.1, p.2.map (fun z => z * (Real.sqrt nx : ℂ)))

/-- Model of myeig from part_000 and part_005, applied to the eigenpair
    list returned by the external solver scipy.linalg.eig (one entry per
    column, in solver order): reorder the pairs stably by ascending real
    part of the eigenvalue, then multiply every eigenvector by sqrt(nx),
    where nx = op.shape[0] is the number of returned pairs. -/
noncomputable def myeig (nx : ℕ) (ps : List (ℂ × List ℂ)) : List (ℂ × List ℂ) :=
  (sSort (fun p => p.1.re) ps).map (scaleVec nx)

/-- Inserting with sIns permutes the element onto the list. -/
theorem sIns_perm {α K : Type} [LinearOrder K] (key : α → K) (a : α) (l : List α) :
    (sIns key a l).Perm (a :: l) := by
  induction l with
  | nil => simp [sIns]
  | cons b l ih =>
      simp only [sIns]
      by_cases h : key a ≤ key b
      · simp [h]
      · simp only [if_neg h]
        exact (ih.cons b).trans (List.Perm.swap a b l)

/-- The stable sort is a permutation of its input. -/
theorem sSort_perm {α K : Type} [LinearOrder K] (key : α → K) (l : List α) :
    (sSort key l).Perm l := by
  induction l with
  | nil => simp [sSort]
  | cons a l ih => exact (sIns_perm key a (sSort key l)).trans (ih.cons a)

/-- Insertion with sIns preserves sortedness by the key. -/
theorem sIns_sorted {α K : Type} [LinearOrder K] (key : α → K) (a : α) (l : List α)
    (h : List.Sorted (fun x y => key x ≤ key y) l) :
    List.Sorted (fun x y => key x ≤ key y) (sIns key a l) := by
  induction l with
  | nil => simp [sIns]
  | cons b l ih =>
      rw [List.sorted_cons] at h
      by_cases hab : key a ≤ key b
      · simp only [sIns, if_pos hab]
        rw [List.sorted_cons]
        refine ⟨?_, List.sorted_cons.mpr h⟩
        intro c hc
        rcases List.mem_cons.mp hc with rfl | hc2
        · exact hab
        · exact le_trans hab (h.1 c hc2)
      · simp only [sIns, if_neg hab]
        rw [List.sorted_cons]
        refine ⟨?_, ih h.2⟩
        intro c hc
        have hc3 := (sIns_perm key a l).mem_iff.mp hc
        rcases List.mem_cons.mp hc3 with rfl | hc4
        · exact le_of_lt (lt_of_not_le hab)
        · exact h.1 c hc4

/-- The stable sort is sorted by the key. -/
theorem sSort_sorted {α K : Type} [LinearOrder K] (key : α → K) (l : List α) :
    List.Sorted (fun x y => key x ≤ key y) (sSort key l) := by
  induction l with
  | nil => simp [sSort]
  | cons a l ih => exact sIns_sorted key a (sSort key l) ih

/-- Filtering by a predicate that rejects everything with a key below
    the inserted element's key commutes with sIns: the inserted element
    lands at the front of the filtered list. -/
theorem sIns_filter_of_key {α K : Type} [LinearOrder K] (key : α → K) (p : α → Bool)
    (a : α) (hpa : p a = true) (hlt : ∀ b : α, key b < key a → p b = false)
    (l : List α) : (sIns key a l).filter p = a :: l.filter p := by
  induction l with
  | nil => simp [sIns, hpa]
  | cons b l ih =>
      by_cases hab : key a ≤ key b
      · simp [sIns, if_pos hab, List.filter_cons, hpa]
      · have hb : p b = false := hlt b (lt_of_not_le hab)
        simp [sIns, if_neg hab, List.filter_cons, hb, ih]

/-- Elements rejected by the predicate disappear from the filter of an
    sIns insertion. -/
theorem sIns_filter_of_not_key {α K : Type} [LinearOrder K] (key : α → K) (p : α → Bool)
    (a : α) (hpa : p a = false) (l : List α) :
    (sIns key a l).filter p = l.filter p := by
  induction l with
  | nil => simp [sIns, hpa]
  | cons b l ih =>
      by_cases hab : key a ≤ key b
      · simp [sIns, if_pos hab, List.filter_cons, hpa]
      · simp [sIns, if_neg hab, List.filter_cons, ih]

/-- Stability of the sort: within each key class the sorted list is the
    input restricted to that class, in input order. -/
theorem sSort_filter_key {α K : Type} [LinearOrder K] [DecidableEq K] (key : α → K)
    (c : K) (l : List α) :
    (sSort key l).filter (fun x => decide (key x = c))
      = l.filter (fun x => decide (key x = c)) := by
  induction l with
  | nil => rfl
  | cons a l ih =>
      by_cases hc : key a = c
      · rw [sSort, sIns_filter_of_key key _ a (by simp [hc])
          (fun b hb => by simp [ne_of_lt (hc ▸ hb)]), ih]
        simp [List.filter_cons, hc]
      · rw [sSort, sIns_filter_of_not_key key _ a (by simp [hc]), ih]
        simp [List.filter_cons, hc]

/-- Filtering commutes with mapping, transporting the predicate. -/
theorem filterMapCommute {α β : Type} (f : α → β) (p : β → Bool) (l : List α) :
    (l.map f).filter p = (l.filter (fun x => p (f x))).map f := by
  induction l with
  | nil => rfl
  | cons a l ih => by_cases h : p (f a) <;> simp [List.filter_cons, h, ih]

/-- The left fold of pickMin stays among the candidates. -/
theorem foldlPickMin_mem {S : Type} (l : List (S × ℚ)) :
    ∀ q : S × ℚ, l.foldl pickMin q ∈ q :: l := by
  induction l with
  | nil => simp
  | cons c l ih =>
      intro q
      simp only [List.foldl_cons]
      rcases List.mem_cons.mp (ih (pickMin q c)) with h2 | h2
      · rw [h2]
        simp only [pickMin]
        split_ifs
        · exact List.mem_cons_of_mem _ (List.mem_cons_self _ _)
        · exact List.mem_cons_self _ _
      · exact List.mem_cons_of_mem _ (List.mem_cons_of_mem _ h2)

/-- The left fold of pickMin reaches a minimal waiting time. -/
theorem foldlPickMin_le {S : Type} (l : List (S × ℚ)) :
    ∀ q : S × ℚ, ∀ p ∈ q :: l, (l.foldl pickMin q).2 ≤ p.2 := by
  induction l with
  | nil =>
      intro q p hp
      rcases List.mem_cons.mp hp with rfl | hp2
      · simp
      · simp at hp2
  | cons c l ih =>
      intro q p hp
      have hq : (pickMin q c).2 ≤ q.2 ∧ (pickMin q c).2 ≤ c.2 := by
        simp only [pickMin]
        split_ifs with h
        · exact ⟨le_of_lt h, le_refl _⟩
        · exact ⟨le_refl _, le_of_not_lt h⟩
      simp only [List.foldl_cons]
      rcases List.mem_cons.mp hp with h1 | hp2
      · rw [h1]
        exact le_trans (ih (pickMin q c) _ (List.mem_cons_self _ _)) hq.1
      · rcases List.mem_cons.mp hp2 with h2 | hp3
        · rw [h2]
          exact le_trans (ih (pickMin q c) _ (List.mem_cons_self _ _)) hq.2
        · exact ih (pickMin q c) p (List.mem_cons_of_mem _ hp3)

/-- On a nonempty candidate list, gillespieStep returns the pair whose
    sampled waiting time (the oracle draw at scale 1/rate) is minimal
    among the candidates' draws. -/
theorem gillespieStep_race {S : Type} (d : S → ℚ → ℚ) (q : S × ℚ) (qs : List (S × ℚ)) :
    ∃ s2 w, gillespieStep d (q :: qs) = some (s2, w) ∧
      (∃ r, (s2, r) ∈ q :: qs ∧ w = d s2 (1 / r)) ∧
      (∀ p ∈ q :: qs, w ≤ d p.1 (1 / p.2)) := by
  have hst : sampleTimes d (q :: qs) = (q.1, d q.1 (1 / q.2)) :: sampleTimes d qs := rfl
  refine ⟨((sampleTimes d qs).foldl pickMin (q.1, d q.1 (1 / q.2))).1,
    ((sampleTimes d qs).foldl pickMin (q.1, d q.1 (1 / q.2))).2, rfl, ?_, ?_⟩
  · have hmem := foldlPickMin_mem (sampleTimes d qs) (q.1, d q.1 (1 / q.2))
    rw [← hst] at hmem
    rcases List.mem_map.mp hmem with ⟨p, hp, hpe⟩
    refine ⟨p.2, ?_, ?_⟩
    · have : ((sampleTimes d qs).foldl pickMin (q.1, d q.1 (1 / q.2))).1 = p.1 := by
        rw [← hpe]
      rw [this]
      exact hp
    · rw [← hpe]
  · intro p hp
    have hmem : (p.1, d p.1 (1 / p.2)) ∈ sampleTimes d (q :: qs) :=
      List.mem_map.mpr ⟨p, hp, rfl⟩
    rw [hst] at hmem
    exact foldlPickMin_le _ _ _ hmem

/-- The waiting time returned by gillespieStep is one of the oracle's
    draws, hence positive whenever the oracle only returns positive
    values. -/
theorem gillespieStep_pos {S : Type} (d : S → ℚ → ℚ) (l : List (S × ℚ))
    (hd : ∀ s c, 0 < d s c) :
    ∀ s2 w, gillespieStep d l = some (s2, w) → 0 < w := by
  intro s2 w h
  cases l with
  | nil => simp [gillespieStep, sampleTimes] at h
  | cons q qs =>
      rcases gillespieStep_race d q qs with ⟨s3, w3, he, ⟨r, _, hw⟩, _⟩
      rw [he] at h
      have hs : s3 = s2 ∧ w3 = w := by
        constructor <;> injection h with h2 <;> simp [Prod.ext_iff] at h2 <;> simp [h2]
      rcases hs with ⟨h1, h2⟩
      rw [← h2, hw]
      exact hd _ _

/-- Helper: an element of getLast? is a member of the list. -/
theorem mem_of_getLastQ {α : Type} {l : List α} {x : α} (h : x ∈ l.getLast?) : x ∈ l := by
  rcases List.mem_getLast?_eq_getLast h with ⟨hne, hx⟩
  rw [hx]
  exact List.getLast_mem hne

/-- Invariant of the part_003 loop: with positive oracle draws, the
    accumulated trajectory keeps its head and its time coordinates stay
    strictly increasing (each appended time is the current time plus a
    positive waiting time). -/
theorem evo3Loop_traj {S : Type} (f : ℚ → S → List (S × ℚ)) (tmax maxrate : ℚ)
    (rng : ℕ → S → ℚ → ℚ) (hrng : ∀ n s c, 0 < rng n s c) :
    ∀ (fuel n : ℕ) (t : ℚ) (s : S) (acc : List (ℚ × S)), acc ≠ [] →
      List.Chain' (· < ·) (acc.map Prod.fst) → (∀ p ∈ acc, p.1 ≤ t) →
      (evo3Loop f tmax maxrate rng fuel n t s acc).1.head? = acc.head? ∧
      List.Chain' (· < ·) ((evo3Loop f tmax maxrate rng fuel n t s acc).1.map Prod.fst) := by
  intro fuel
  induction fuel with
  | zero =>
      intro n t s acc hne hch hle
      exact ⟨rfl, hch⟩
  | succ fuel ih =>
      intro n t s acc hne hch hle
      simp only [evo3Loop]
      by_cases htl : t < tmax
      · rw [if_pos htl]
        by_cases hemp : ((f t s).filter (fun p => 0 < p.2)).isEmpty = true
        · rw [if_pos hemp]
          exact ⟨rfl, hch⟩
        · rw [if_neg hemp]
          cases hgs : gillespieStep (rng n)
              (if maxrate = 0 then (f t s).filter (fun p => 0 < p.2)
               else ((f t s).filter (fun p => 0 < p.2)).filter (fun p => p.2 < maxrate)) with
          | none => exact ⟨rfl, hch⟩
          | some p =>
              obtain ⟨s2, w⟩ := p
              have hw : 0 < w := gillespieStep_pos _ _ (fun u c => hrng n u c) s2 w hgs
              have htw : t < t + w := lt_add_of_pos_right t hw
              have hne2 : acc ++ [(t + w, s2)] ≠ [] := by simp
              have hch2 : List.Chain' (· < ·) ((acc ++ [(t + w, s2)]).map Prod.fst) := by
                rw [List.map_append, List.chain'_append]
                refine ⟨hch, List.chain'_singleton _, ?_⟩
                intro x hx y hy
                simp only [List.map_cons, List.map_nil, List.head?_cons,
                  Option.mem_def, Option.some_inj] at hy
                rcases List.mem_map.mp (mem_of_getLastQ hx) with ⟨p, hp, hpx⟩
                rw [← hy, ← hpx]
                exact lt_of_le_of_lt (hle p hp) htw
              have hle2 : ∀ p ∈ acc ++ [(t + w, s2)], p.1 ≤ t + w := by
                intro p hp
                rcases List.mem_append.mp hp with hp2 | hp2
                · exact le_trans (hle p hp2) (le_of_lt htw)
                · simp only [List.mem_singleton] at hp2
                  rw [hp2]
              have hres := ih (n + 1) (t + w) s2 (acc ++ [(t + w, s2)]) hne2 hch2 hle2
              refine ⟨?_, hres.2⟩
              rw [hres.1]
              exact List.head?_append_of_ne_nil acc hne
      · rw [if_neg htl]
        exact ⟨rfl, hch⟩

/-- Run of the part_003 loop on the pure-decay transition function from
    integer state m: provided every rate along the way stays below the
    ceiling, every draw is positive and at most δ, the time budget
    covers m draws and the fuel covers m steps plus the final absorbing
    check, the loop stops with no warning, not by fuel, and (for m >= 1)
    the last recorded state is 0. -/
theorem decayLoop (maxrate δ : ℚ) (rng : ℕ → ℤ → ℚ → ℚ) (hδ : 0 < δ)
    (hrng : ∀ n s c, 0 < rng n s c ∧ rng n s c ≤ δ) (tmax : ℚ) :
    ∀ (m fuel n : ℕ) (t : ℚ) (acc : List (ℚ × ℤ)),
      (m : ℚ) < maxrate → m + 1 ≤ fuel → t + m * δ ≤ tmax →
      (evo3Loop decayFun tmax maxrate rng fuel n t (m : ℤ) acc).2.2 ≠ Halt.fuelOut ∧
      (evo3Loop decayFun tmax maxrate rng fuel n t (m : ℤ) acc).2.1 = false ∧
      ((m = 0 ∧ (evo3Loop decayFun tmax maxrate rng fuel n t (m : ℤ) acc).1 = acc) ∨
        (1 ≤ m ∧ ∃ t2,
          (evo3Loop decayFun tmax maxrate rng fuel n t (m : ℤ) acc).1.getLast?
            = some (t2, (0 : ℤ)))) := by
  intro m
  induction m with
  | zero =>
      intro fuel n t acc hmr hfuel ht
      obtain ⟨fuel2, rfl⟩ : ∃ k, fuel = k + 1 := ⟨fuel - 1, by omega⟩
      have hfil : ((decayFun t ((0 : ℕ) : ℤ)).filter (fun p => 0 < p.2)).isEmpty = true := by
        simp [decayFun]
      simp only [evo3Loop]
      by_cases htl : t < tmax
      · rw [if_pos htl, if_pos hfil]
        exact ⟨by simp, rfl, Or.inl (by simp)⟩
      · rw [if_neg htl]
        exact ⟨by simp, rfl, Or.inl (by simp)⟩
  | succ m ih =>
      intro fuel n t acc hmr hfuel ht
      obtain ⟨fuel2, rfl⟩ : ∃ k, fuel = k + 1 := ⟨fuel - 1, by omega⟩
      have hm1 : (0 : ℚ) < ((m + 1 : ℕ) : ℚ) := by positivity
      have hmδ : (0 : ℚ) ≤ (m : ℚ) * δ := by positivity
      have htl : t < tmax := by
        have : (0 : ℚ) < ((m + 1 : ℕ) : ℚ) * δ := by positivity
        push_cast at ht this ⊢
        nlinarith
      have hrate : ((((m + 1 : ℕ) : ℤ) : ℚ)) = ((m + 1 : ℕ) : ℚ) := by push_cast; ring
      have hfil : (decayFun t ((m + 1 : ℕ) : ℤ)).filter (fun p => 0 < p.2)
          = [(((m + 1 : ℕ) : ℤ) - 1, ((((m + 1 : ℕ) : ℤ)) : ℚ))] := by
        simp only [decayFun, List.filter_cons, List.filter_nil]
        rw [if_pos]
        simp only [decide_eq_true_eq]
        rw [hrate]
        exact hm1
      have hmr0 : maxrate ≠ 0 := by
        intro h0
        rw [h0] at hmr
        push_cast at hmr
        nlinarith
      have hkept : (if maxrate = 0 then (decayFun t ((m + 1 : ℕ) : ℤ)).filter (fun p => 0 < p.2)
            else ((decayFun t ((m + 1 : ℕ) : ℤ)).filter (fun p => 0 < p.2)).filter
              (fun p => p.2 < maxrate))
          = [(((m + 1 : ℕ) : ℤ) - 1, ((((m + 1 : ℕ) : ℤ)) : ℚ))] := by
        rw [if_neg hmr0, hfil]
        simp only [List.filter_cons, List.filter_nil]
        rw [if_pos]
        simp only [decide_eq_true_eq]
        rw [hrate]
        exact hmr
      have hgs : gillespieStep (rng n) [(((m + 1 : ℕ) : ℤ) - 1, ((((m + 1 : ℕ) : ℤ)) : ℚ))]
          = some (((m + 1 : ℕ) : ℤ) - 1,
              rng n (((m + 1 : ℕ) : ℤ) - 1) (1 / ((((m + 1 : ℕ) : ℤ)) : ℚ))) := rfl
      simp only [evo3Loop]
      rw [if_pos htl]
      have hemp : ((decayFun t ((m + 1 : ℕ) : ℤ)).filter (fun p => 0 < p.2)).isEmpty = false := by
        rw [hfil]
        rfl
      rw [if_neg (by rw [hemp]; simp)]
      rw [hkept, hgs]
      have hst : ((m + 1 : ℕ) : ℤ) - 1 = ((m : ℕ) : ℤ) := by push_cast; ring
      set w := rng n (((m + 1 : ℕ) : ℤ) - 1) (1 / ((((m + 1 : ℕ) : ℤ)) : ℚ)) with hw
      have hwpos : 0 < w ∧ w ≤ δ := hrng n _ _
      rw [hst]
      have hres := ih fuel2 (n + 1) (t + w) (acc ++ [(t + w, ((m : ℕ) : ℤ))])
        (by push_cast at hmr ⊢; linarith) (by omega)
        (by push_cast at ht ⊢; nlinarith [hwpos.1, hwpos.2])
      refine ⟨hres.1, hres.2.1, ?_⟩
      rcases hres.2.2 with ⟨hm0, heq⟩ | ⟨_, t2, heq⟩
      · refine Or.inr ⟨by omega, t + w, ?_⟩
        rw [heq]
        subst hm0
        simp only [Nat.cast_zero]
        exact List.getLast?_concat acc
      · exact Or.inr ⟨by omega, t2, heq⟩
theorem keyUnique {S : Type} {l : List (S × ℚ)} (h : (l.map Prod.fst).Nodup)
    {a : S} {b c : ℚ} (hb : (a, b) ∈ l) (hc : (a, c) ∈ l) : b = c := by
  induction l with
  | nil => simp at hb
  | cons p l ih =>
      simp only [List.map_cons, List.nodup_cons] at h
      rcases List.mem_cons.mp hb with h1 | h1 <;> rcases List.mem_cons.mp hc with h2 | h2
      · rw [← h1] at h2
        exact ((Prod.mk.injEq a c a b).mp h2).2.symm
      · exfalso
        apply h.1
        exact List.mem_map.mpr ⟨(a, c), h2, by rw [← h1]⟩
      · exfalso
        apply h.1
        exact List.mem_map.mpr ⟨(a, b), h1, by rw [← h2]⟩
      · exact ih h.2 h1 h2

/-- Invariant of the part_004 loop: same head preservation and strict
    monotonicity of the trajectory times. -/
theorem evo4Loop_traj {S : Type} (f : ℚ → S → List (S × ℚ)) (tmax : ℚ)
    (rng : ℕ → S → ℚ → ℚ) (hrng : ∀ n s c, 0 < rng n s c) :
    ∀ (fuel n : ℕ) (t : ℚ) (s : S) (acc : List (ℚ × S)), acc ≠ [] →
      List.Chain' (· < ·) (acc.map Prod.fst) → (∀ p ∈ acc, p.1 ≤ t) →
      (evo4Loop f tmax rng fuel n t s acc).1.head? = acc.head? ∧
      List.Chain' (· < ·) ((evo4Loop f tmax rng fuel n t s acc).1.map Prod.fst) := by
  intro fuel
  induction fuel with
  | zero =>
      intro n t s acc hne hch hle
      exact ⟨rfl, hch⟩
  | succ fuel ih =>
      intro n t s acc hne hch hle
      simp only [evo4Loop]
      by_cases htl : t < tmax
      · rw [if_pos htl]
        cases hgs : gillespieStep (rng n) ((f t s).filter (fun p => 0 < p.2)) with
        | none => exact ⟨rfl, hch⟩
        | some p =>
            obtain ⟨s2, w⟩ := p
            have hw : 0 < w := gillespieStep_pos _ _ (fun u c => hrng n u c) s2 w hgs
            have htw : t < t + w := lt_add_of_pos_right t hw
            have hne2 : acc ++ [(t + w, s2)] ≠ [] := by simp
            have hch2 : List.Chain' (· < ·) ((acc ++ [(t + w, s2)]).map Prod.fst) := by
              rw [List.map_append, List.chain'_append]
              refine ⟨hch, List.chain'_singleton _, ?_⟩
              intro x hx y hy
              simp only [List.map_cons, List.map_nil, List.head?_cons,
                Option.mem_def, Option.some_inj] at hy
              rcases List.mem_map.mp (mem_of_getLastQ hx) with ⟨p, hp, hpx⟩
              rw [← hy, ← hpx]
              exact lt_of_le_of_lt (hle p hp) htw
            have hle2 : ∀ p ∈ acc ++ [(t + w, s2)], p.1 ≤ t + w := by
              intro p hp
              rcases List.mem_append.mp hp with hp2 | hp2
              · exact le_trans (hle p hp2) (le_of_lt htw)
              · simp only [List.mem_singleton] at hp2
                rw [hp2]
            have hres := ih (n + 1) (t + w) s2 (acc ++ [(t + w, s2)]) hne2 hch2 hle2
            refine ⟨?_, hres.2⟩
            rw [hres.1]
            exact List.head?_append_of_ne_nil acc hne
      · rw [if_neg htl]
        exact ⟨rfl, hch⟩

/-- C6 counterexample: the claim says build_grid (discretise) fails with
    an InvalidDomain error whenever nx < 2 or xa >= xb and never returns
    a grid for such inputs.  At the concrete input xa = 1 > xb = 0,
    nx = 3, discretise succeeds and returns the descending grid
    (1, 1/2, 0) with negative spacing -1/2. -/
theorem discretise_accepts_reversed_domain_cex :
    (discretise 1 0 3 "periodic").isSome = true ∧
    discXs 1 0 3 "periodic" = ![1, 1/2, 0] ∧
    discDx 1 0 3 "periodic" = -(1/2) := by
  have hd : discretise 1 0 3 "periodic"
      = some ⟨fun i => 1 + ((i : ℕ) : ℚ) * (0 - 1) / ((3 : ℚ) - 1),
          (0 - 1) / ((3 : ℚ) - 1), eyeMat 3,
          ddxPer 3 ((0 - 1) / ((3 : ℚ) - 1)),
          d2dx2Per 3 ((0 - 1) / ((3 : ℚ) - 1))⟩ := by
    rw [discretise, if_pos (by norm_num), if_pos rfl]
    norm_num
  refine ⟨by rw [hd]; rfl, ?_, ?_⟩
  · simp only [discXs, hd]
    funext i
    fin_cases i <;> norm_num
  · simp only [discDx, hd]
    norm_num [Option.getD]

/-- C6 amended: discretise performs no domain validation.  For nx < 2
    every call fails (reading xs[1] is an index error — there is no
    InvalidDomain error in the code), while for nx >= 2 the periodic
    call succeeds for every xa, xb — including xa >= xb — returning the
    linspace grid xs[i] = xa + i (xb - xa) / (nx - 1). -/
theorem discretise_domain_amended (xa xb : ℚ) (nx : ℕ) (bcs : String) :
    (nx < 2 → discretise xa xb nx bcs = none) ∧
    (2 ≤ nx → (discretise xa xb nx "periodic").isSome = true ∧
      discXs xa xb nx "periodic"
        = fun i : Fin nx => xa + ((i : ℕ) : ℚ) * (xb - xa) / ((nx : ℚ) - 1)) := by
  constructor
  · intro h
    rw [discretise, if_neg (by omega)]
  · intro h
    have hd : discretise xa xb nx "periodic"
        = some ⟨fun i : Fin nx => xa + ((i : ℕ) : ℚ) * (xb - xa) / ((nx : ℚ) - 1),
            (xb - xa) / ((nx : ℚ) - 1), eyeMat nx,
            ddxPer nx ((xb - xa) / ((nx : ℚ) - 1)),
            d2dx2Per nx ((xb - xa) / ((nx : ℚ) - 1))⟩ := by
      rw [discretise, if_pos h, if_pos rfl]
    refine ⟨by rw [hd]; rfl, ?_⟩
    simp only [discXs, hd]
    rfl

/-- C6 witness: the amended statement applied at concrete inputs — the
    failing branch at nx = 1, and the accepting branch at the reversed
    domain xa = 1 > xb = 0 with nx = 3. -/
theorem discretise_domain_amended_witness :
    ((1 : ℕ) < 2 ∧ discretise 0 1 1 "dirichlet" = none) ∧
    ((2 : ℕ) ≤ 3 ∧ (discretise 1 0 3 "periodic").isSome = true ∧
      discXs 1 0 3 "periodic"
        = fun i : Fin 3 => 1 + ((i : ℕ) : ℚ) * (0 - 1) / ((3 : ℕ) - 1 : ℚ)) :=
  ⟨⟨by decide, (discretise_domain_amended 0 1 1 "dirichlet").1 (by decide)⟩,
   ⟨by decide, (discretise_domain_amended 1 0 3 "periodic").2 (by decide)⟩⟩

/-- C4 amended: with bcs = "neumann", discretise succeeds (for nx >= 4
    and xa different from xb) and the returned identity matrix is the
    identity with only its two corner entries (0,0) and (nx-1, nx-1)
    overwritten by dx^2 — not a one-sided first-derivative stencil — so
    imposing (I y)_0 = 0 in a generalized eigenproblem is equivalent to
    y_0 = 0, a zero-value condition, not a zero-derivative condition. -/
theorem discretise_neumann_eye_amended (xa xb : ℚ) (nx : ℕ) (h4 : 4 ≤ nx) (hab : xa ≠ xb) :
    (discretise xa xb nx "neumann").isSome = true ∧
    discDx xa xb nx "neumann" ≠ 0 ∧
    (∀ i j : Fin nx, discEye xa xb nx "neumann" i j =
      if (i : ℕ) = 0 ∧ (j : ℕ) = 0 then discDx xa xb nx "neumann" * discDx xa xb nx "neumann"
      else if (i : ℕ) = nx - 1 ∧ (j : ℕ) = nx - 1 then
        discDx xa xb nx "neumann" * discDx xa xb nx "neumann"
      else if i = j then 1 else 0) ∧
    (∀ y : Fin nx → ℚ,
      (∑ j, discEye xa xb nx "neumann" ⟨0, by omega⟩ j * y j) = 0 ↔ y ⟨0, by omega⟩ = 0) := by
  have h2 : 2 ≤ nx := by omega
  have hd : discretise xa xb nx "neumann"
      = some ⟨fun i : Fin nx => xa + ((i : ℕ) : ℚ) * (xb - xa) / ((nx : ℚ) - 1),
          (xb - xa) / ((nx : ℚ) - 1), neuEye nx ((xb - xa) / ((nx : ℚ) - 1)),
          dirDdx nx ((xb - xa) / ((nx : ℚ) - 1)),
          dirD2dx2 nx ((xb - xa) / ((nx : ℚ) - 1))⟩ := by
    rw [discretise, if_pos h2, if_neg (by decide), if_neg (by decide), if_pos rfl, if_pos h4]
  have hdx : discDx xa xb nx "neumann" = (xb - xa) / ((nx : ℚ) - 1) := by
    simp only [discDx, hd]
    rfl
  have hdxne : (xb - xa) / ((nx : ℚ) - 1) ≠ 0 := by
    apply div_ne_zero
    · exact sub_ne_zero.mpr (Ne.symm hab)
    · have h4q : (4 : ℚ) ≤ (nx : ℚ) := by exact_mod_cast h4
      linarith
  have hrow : ∀ j : Fin nx, discEye xa xb nx "neumann" ⟨0, by omega⟩ j
      = if (j : ℕ) = 0 then (xb - xa) / ((nx : ℚ) - 1) * ((xb - xa) / ((nx : ℚ) - 1))
        else 0 := by
    intro j
    simp only [discEye, hd]
    show neuEye nx ((xb - xa) / ((nx : ℚ) - 1)) ⟨0, by omega⟩ j = _
    by_cases hj : (j : ℕ) = 0
    · simp [neuEye, hj]
    · have hnx1 : (0 : ℕ) ≠ nx - 1 := by omega
      have hc3 : (⟨0, by omega⟩ : Fin nx) ≠ j := by
        intro hc
        apply hj
        rw [← hc]
      simp [neuEye, hj, hnx1, hc3]
  refine ⟨by rw [hd]; rfl, by rw [hdx]; exact hdxne, ?_, ?_⟩
  · intro i j
    rw [hdx]
    simp only [discEye, hd]
    rfl
  · intro y
    have hsum : (∑ j, discEye xa xb nx "neumann" ⟨0, by omega⟩ j * y j)
        = ((xb - xa) / ((nx : ℚ) - 1) * ((xb - xa) / ((nx : ℚ) - 1))) * y ⟨0, by omega⟩ := by
      rw [Finset.sum_eq_single (⟨0, by omega⟩ : Fin nx)]
      · rw [hrow]
        simp
      · intro b _ hb
        rw [hrow]
        have hbne : (b : ℕ) ≠ 0 := fun hc => hb (Fin.ext hc)
        simp [hbne]
      · intro hmem
        exact absurd (Finset.mem_univ _) hmem
    rw [hsum, mul_eq_zero]
    exact or_iff_right (mul_ne_zero hdxne hdxne)

/-- C4 counterexample: the claim says the neumann identity matrix has
    its boundary rows overwritten with a one-sided first-derivative
    stencil enforcing a zero-derivative condition.  At xa = 0, xb = 1,
    nx = 5 (dx = 1/4), boundary row 0 of the returned identity is
    (1/16, 0, 0, 0, 0): a multiple of a unit row whose entries sum to
    1/16, which is nonzero — a first-derivative stencil must annihilate
    constant vectors, so this row is not a derivative stencil and
    (I y)_0 = 0 forces y_0 = 0, a zero-value condition. -/
theorem discretise_neumann_eye_cex :
    (fun j : Fin 5 => discEye 0 1 5 "neumann" 0 j) = ![1/16, 0, 0, 0, 0] ∧
    (∑ j, discEye 0 1 5 "neumann" 0 j) = 1/16 ∧ ((1/16 : ℚ) ≠ 0) := by
  have hd : discretise 0 1 5 "neumann"
      = some ⟨fun i : Fin 5 => 0 + ((i : ℕ) : ℚ) * (1 - 0) / ((5 : ℚ) - 1),
          (1 - 0) / ((5 : ℚ) - 1), neuEye 5 ((1 - 0) / ((5 : ℚ) - 1)),
          dirDdx 5 ((1 - 0) / ((5 : ℚ) - 1)),
          dirD2dx2 5 ((1 - 0) / ((5 : ℚ) - 1))⟩ := by
    rw [discretise, if_pos (by norm_num), if_neg (by decide), if_neg (by decide),
      if_pos rfl, if_pos (by norm_num)]
    norm_num
  have hrow : ∀ j : Fin 5, discEye 0 1 5 "neumann" 0 j = ![(1 : ℚ)/16, 0, 0, 0, 0] j := by
    intro j
    simp only [discEye, hd]
    show neuEye 5 ((1 - 0) / ((5 : ℚ) - 1)) 0 j = _
    fin_cases j <;> norm_num [neuEye] <;> decide
  refine ⟨funext hrow, ?_, by norm_num⟩
  rw [Finset.sum_congr rfl (fun j _ => hrow j), Fin.sum_univ_five]
  norm_num

/-- C4 witness: the amended statement applied at xa = 0, xb = 1,
    nx = 5. -/
theorem discretise_neumann_eye_amended_witness :
    ((4 : ℕ) ≤ 5 ∧ (0 : ℚ) ≠ 1) ∧
    ((discretise 0 1 5 "neumann").isSome = true ∧
      discDx 0 1 5 "neumann" ≠ 0 ∧
      (∀ i j : Fin 5, discEye 0 1 5 "neumann" i j =
        if (i : ℕ) = 0 ∧ (j : ℕ) = 0 then discDx 0 1 5 "neumann" * discDx 0 1 5 "neumann"
        else if (i : ℕ) = 5 - 1 ∧ (j : ℕ) = 5 - 1 then
          discDx 0 1 5 "neumann" * discDx 0 1 5 "neumann"
        else if i = j then 1 else 0) ∧
      (∀ y : Fin 5 → ℚ,
        (∑ j, discEye 0 1 5 "neumann" ⟨0, by omega⟩ j * y j) = 0 ↔ y ⟨0, by omega⟩ = 0)) :=
  ⟨⟨by decide, by norm_num⟩,
   discretise_neumann_eye_amended 0 1 5 (by decide) (by norm_num)⟩

/-- C5 amended: with bcs = "dirichlet", d4dx4_mat zeroes rows 1, nx-2
    and nx-1, but row 0 is not zeroed: it is overwritten with the
    five-point fourth-derivative stencil (1, -4, 6, -4, 1) / dx^4 in
    columns 0..4. -/
theorem d4dx4_dirichlet_rows_amended (nx : ℕ) (dx : ℚ) (h5 : 5 ≤ nx) :
    (d4dx4_mat nx dx "dirichlet").isSome = true ∧
    (∀ i : Fin nx, ((i : ℕ) = 1 ∨ (i : ℕ) = nx - 2 ∨ (i : ℕ) = nx - 1) →
      ∀ j : Fin nx, d4mat nx dx "dirichlet" i j = 0) ∧
    (∀ i : Fin nx, (i : ℕ) = 0 → ∀ j : Fin nx,
      d4mat nx dx "dirichlet" i j = d4Row0 dx (j : ℕ)) := by
  have hd : d4dx4_mat nx dx "dirichlet"
      = some (fun i j : Fin nx =>
          if (i : ℕ) = 0 then d4Row0 dx (j : ℕ)
          else if (i : ℕ) = 1 ∨ (i : ℕ) = nx - 2 ∨ (i : ℕ) = nx - 1 then 0
          else d4Per nx dx i j) := by
    rw [d4dx4_mat, if_pos rfl, if_pos h5]
  refine ⟨by rw [hd]; rfl, ?_, ?_⟩
  · intro i hi j
    have h0 : ¬(i : ℕ) = 0 := by omega
    simp only [d4mat, hd, Option.getD_some]
    simp [h0, hi]
  · intro i hi j
    simp only [d4mat, hd, Option.getD_some]
    simp [hi]

/-- C5 counterexample: the claim says rows 0, 1, nx-2, nx-1 of the
    dirichlet fourth-derivative matrix are all zeroed.  At nx = 8,
    dx = 1, row 0 equals (1, -4, 6, -4, 1, 0, 0, 0), whose entry (0,0)
    is 1, not 0. -/
theorem d4dx4_dirichlet_row0_cex :
    (fun j : Fin 8 => d4mat 8 1 "dirichlet" 0 j) = ![1, -4, 6, -4, 1, 0, 0, 0] ∧
    d4mat 8 1 "dirichlet" 0 0 = 1 ∧ ((1 : ℚ) ≠ 0) := by
  have hd : d4dx4_mat 8 1 "dirichlet"
      = some (fun i j : Fin 8 =>
          if (i : ℕ) = 0 then d4Row0 1 (j : ℕ)
          else if (i : ℕ) = 1 ∨ (i : ℕ) = 8 - 2 ∨ (i : ℕ) = 8 - 1 then 0
          else d4Per 8 1 i j) := by
    rw [d4dx4_mat, if_pos rfl, if_pos (by norm_num)]
  refine ⟨?_, ?_, by norm_num⟩
  · funext j
    simp only [d4mat, hd, Option.getD_some]
    fin_cases j <;> norm_num [d4Row0]
  · simp only [d4mat, hd, Option.getD_some]
    norm_num [d4Row0]

/-- C5 witness: the amended statement applied at nx = 8, dx = 1. -/
theorem d4dx4_dirichlet_rows_amended_witness :
    ((5 : ℕ) ≤ 8) ∧
    ((d4dx4_mat 8 1 "dirichlet").isSome = true ∧
      (∀ i : Fin 8, ((i : ℕ) = 1 ∨ (i : ℕ) = 8 - 2 ∨ (i : ℕ) = 8 - 1) →
        ∀ j : Fin 8, d4mat 8 1 "dirichlet" i j = 0) ∧
      (∀ i : Fin 8, (i : ℕ) = 0 → ∀ j : Fin 8,
        d4mat 8 1 "dirichlet" i j = d4Row0 1 (j : ℕ))) :=
  ⟨by decide, d4dx4_dirichlet_rows_amended 8 1 (by decide)⟩

/-- C7: for the trajectory with jump events at times (0, 6/5, 7/2)
    (that is 0, 1.2, 3.5) and states (A, B, C) encoded as (0, 1, 2),
    resampling at query times (0, 1, 6/5, 2, 5) returns the states
    (A, A, B, B, C): each query time, including the exact jump time 6/5
    and the time 5 past the last event, maps to the state of the most
    recent trajectory event at or before it. -/
theorem resample_last_known_value :
    resample [((0 : ℚ), (0 : ℤ)), (6/5, 1), (7/2, 2)] [0, 1, 6/5, 2, 5]
      = some [(0, 0), (1, 0), (6/5, 1), (2, 1), (5, 2)] := by
  norm_num [resample, lastEventLE, List.filter, pickMin]

/-- C1: for every eigenpair list returned by the external solver,
    myeig returns exactly those eigenpairs with each eigenvector
    multiplied by sqrt(nx) (a permutation of the scaled input), ordered
    by ascending real part of the eigenvalue, and — stability — within
    every class of equal real parts the pairs keep the solver's
    original order (the filter of the output at each real-part value
    equals the filter of the scaled input); the eigenvalues themselves
    are unchanged (the multiset of eigenvalues is preserved, and
    scaleVec leaves the eigenvalue component untouched). -/
theorem myeig_stable_sort_scale (nx : ℕ) (ps : List (ℂ × List ℂ)) :
    (myeig nx ps).Perm (ps.map (scaleVec nx)) ∧
    List.Sorted (fun p q : ℂ × List ℂ => p.1.re ≤ q.1.re) (myeig nx ps) ∧
    (∀ c : ℝ, (myeig nx ps).filter (fun p => decide (p.1.re = c))
        = (ps.map (scaleVec nx)).filter (fun p => decide (p.1.re = c))) ∧
    ((myeig nx ps).map Prod.fst).Perm (ps.map Prod.fst) := by
  refine ⟨?_, ?_, ?_, ?_⟩
  · exact (sSort_perm (fun p => p.1.re) ps).map (scaleVec nx)
  · show List.Pairwise _ (myeig nx ps)
    simp only [myeig]
    rw [List.pairwise_map]
    exact sSort_sorted (fun p => p.1.re) ps
  · intro c
    have hstab := sSort_filter_key (fun p : ℂ × List ℂ => p.1.re) c ps
    calc (myeig nx ps).filter (fun p => decide (p.1.re = c))
        = ((sSort (fun p : ℂ × List ℂ => p.1.re) ps).filter
            (fun x => decide (x.1.re = c))).map (scaleVec nx) := by
          exact filterMapCommute (scaleVec nx) (fun p => decide (p.1.re = c))
            (sSort (fun p => p.1.re) ps)
      _ = ((ps.filter (fun x => decide (x.1.re = c)))).map (scaleVec nx) := by
          rw [hstab]
      _ = (ps.map (scaleVec nx)).filter (fun p => decide (p.1.re = c)) := by
          exact (filterMapCommute (scaleVec nx) (fun p => decide (p.1.re = c)) ps).symm
  · have h1 : (myeig nx ps).map Prod.fst
        = (sSort (fun p : ℂ × List ℂ => p.1.re) ps).map Prod.fst := by
      simp only [myeig, List.map_map]
      rfl
    rw [h1]
    exact (sSort_perm (fun p => p.1.re) ps).map Prod.fst

/-- C2: at a simulation step at time t < tmax in state s, the
    evolution loop (part_004 variant) draws, for each candidate
    (k, rate) with rate > 0 in the transition map, the oracle's
    exponential variate at scale (mean) 1/rate, selects the candidate
    whose sampled waiting time w is minimal among all the candidates'
    draws, advances t by exactly w, and appends (t + w, winner) as the
    new state of the trajectory. -/
theorem evolution_step_exponential_race {S : Type} (f : ℚ → S → List (S × ℚ))
    (rng : ℕ → S → ℚ → ℚ) (tmax t : ℚ) (s : S) (n fuel : ℕ) (acc : List (ℚ × S))
    (ht : t < tmax) (q : S × ℚ) (qs : List (S × ℚ))
    (hpos : (f t s).filter (fun p => 0 < p.2) = q :: qs) :
    ∃ s2 w, gillespieStep (rng n) (q :: qs) = some (s2, w) ∧
      (∃ r, (s2, r) ∈ q :: qs ∧ 0 < r ∧ w = rng n s2 (1 / r)) ∧
      (∀ p ∈ q :: qs, 0 < p.2 ∧ w ≤ rng n p.1 (1 / p.2)) ∧
      evo4Loop f tmax rng (fuel + 1) n t s acc
        = evo4Loop f tmax rng fuel (n + 1) (t + w) s2 (acc ++ [(t + w, s2)]) := by
  have hmempos : ∀ p ∈ q :: qs, 0 < p.2 := by
    intro p hp
    rw [← hpos] at hp
    have := (List.mem_filter.mp hp).2
    simpa using this
  rcases gillespieStep_race (rng n) q qs with ⟨s2, w, hgs, ⟨r, hr, hw⟩, hmin⟩
  refine ⟨s2, w, hgs, ⟨r, hr, ?_, hw⟩, ?_, ?_⟩
  · exact hmempos (s2, r) hr
  · intro p hp
    exact ⟨hmempos p hp, hmin p hp⟩
  · simp only [evo4Loop]
    rw [if_pos ht, hpos, hgs]

/-- C2 witness: the race applied at the concrete step with candidates
    (1 at rate 2) and (2 at rate 4) and a constant draw oracle. -/
theorem evolution_step_exponential_race_witness :
    ((0 : ℚ) < 1 ∧
      ((fun _ _ => [((1 : ℤ), (2 : ℚ)), ((2 : ℤ), (4 : ℚ))]) (0 : ℚ) (0 : ℤ)).filter
          (fun p => 0 < p.2) = ((1 : ℤ), (2 : ℚ)) :: [((2 : ℤ), (4 : ℚ))]) ∧
    (∃ s2 w, gillespieStep ((fun _ _ _ => (1 : ℚ)) (0 : ℕ)) (((1 : ℤ), (2 : ℚ)) :: [((2 : ℤ), (4 : ℚ))])
        = some (s2, w) ∧
      (∃ r, (s2, r) ∈ ((1 : ℤ), (2 : ℚ)) :: [((2 : ℤ), (4 : ℚ))] ∧ 0 < r ∧
        w = (fun _ _ _ => (1 : ℚ)) (0 : ℕ) s2 (1 / r)) ∧
      (∀ p ∈ ((1 : ℤ), (2 : ℚ)) :: [((2 : ℤ), (4 : ℚ))], 0 < p.2 ∧
        w ≤ (fun _ _ _ => (1 : ℚ)) (0 : ℕ) p.1 (1 / p.2)) ∧
      evo4Loop (fun _ _ => [((1 : ℤ), (2 : ℚ)), ((2 : ℤ), (4 : ℚ))]) 1 (fun _ _ _ => (1 : ℚ))
          (0 + 1) 0 0 0 []
        = evo4Loop (fun _ _ => [((1 : ℤ), (2 : ℚ)), ((2 : ℤ), (4 : ℚ))]) 1 (fun _ _ _ => (1 : ℚ))
          0 (0 + 1) (0 + w) s2 ([] ++ [(0 + w, s2)])) :=
  ⟨⟨by norm_num, by decide⟩,
   evolution_step_exponential_race (fun _ _ => [((1 : ℤ), (2 : ℚ)), ((2 : ℤ), (4 : ℚ))])
     (fun _ _ _ => (1 : ℚ)) 1 0 (0 : ℤ) 0 0 [] (by norm_num)
     ((1 : ℤ), (2 : ℚ)) [((2 : ℤ), (4 : ℚ))] (by decide)⟩

/-- C8: when a rate ceiling is configured (maxrate truthy) and every
    positive-rate candidate's rate exceeds the ceiling, the part_003
    evolution loop halts at that step by returning — no exception —
    with the warning flag set (modelling warnings.warn) and with
    exactly the trajectory accumulated so far. -/
theorem rate_ceiling_halt {S : Type} (f : ℚ → S → List (S × ℚ))
    (rng : ℕ → S → ℚ → ℚ) (tmax maxrate t : ℚ) (s : S) (n fuel : ℕ)
    (acc : List (ℚ × S)) (ht : t < tmax) (hmr : maxrate ≠ 0)
    (q : S × ℚ) (qs : List (S × ℚ))
    (hpos : (f t s).filter (fun p => 0 < p.2) = q :: qs)
    (hexc : ∀ p ∈ q :: qs, maxrate < p.2) :
    evo3Loop f tmax maxrate rng (fuel + 1) n t s acc = (acc, true, Halt.ceiling) := by
  have hemp : ((f t s).filter (fun p => 0 < p.2)).isEmpty = false := by
    rw [hpos]
    rfl
  have hkept : ((f t s).filter (fun p => 0 < p.2)).filter (fun p => p.2 < maxrate) = [] := by
    rw [hpos, List.filter_eq_nil_iff]
    intro p hp
    simp only [decide_eq_true_eq, not_lt]
    exact le_of_lt (hexc p hp)
  simp only [evo3Loop]
  rw [if_pos ht, if_neg (by rw [hemp]; simp), if_neg hmr, hkept]
  rfl

/-- C8 witness: the ceiling halt at a concrete step with a single
    candidate of rate 7 against ceiling 5. -/
theorem rate_ceiling_halt_witness :
    ((0 : ℚ) < 10 ∧ (5 : ℚ) ≠ 0 ∧
      ((fun _ _ => [((1 : ℤ), (7 : ℚ))]) (0 : ℚ) (0 : ℤ)).filter (fun p => 0 < p.2)
        = ((1 : ℤ), (7 : ℚ)) :: [] ∧
      (∀ p ∈ ((1 : ℤ), (7 : ℚ)) :: ([] : List (ℤ × ℚ)), (5 : ℚ) < p.2)) ∧
    evo3Loop (fun _ _ => [((1 : ℤ), (7 : ℚ))]) 10 5 (fun _ _ _ => (1 : ℚ)) (3 + 1) 0 0
        (0 : ℤ) [((0 : ℚ), (0 : ℤ))]
      = ([((0 : ℚ), (0 : ℤ))], true, Halt.ceiling) :=
  ⟨⟨by norm_num, by norm_num, by decide, by decide⟩,
   rate_ceiling_halt (fun _ _ => [((1 : ℤ), (7 : ℚ))]) (fun _ _ _ => (1 : ℚ)) 10 5 0
     (0 : ℤ) 0 3 [((0 : ℚ), (0 : ℤ))] (by norm_num) (by norm_num)
     ((1 : ℤ), (7 : ℚ)) [] (by decide) (by decide)⟩

/-- C10: with a nonzero maxrate, every candidate whose rate is >= the
    ceiling is removed before the exponential race: the race runs on
    the doubly filtered list, the selected candidate's rate is below
    the ceiling, a candidate with rate >= maxrate is never selected (by
    key uniqueness of the transition dict), and the loop continues with
    the winner among the below-ceiling candidates. -/
theorem maxrate_filter_before_race {S : Type} (f : ℚ → S → List (S × ℚ))
    (rng : ℕ → S → ℚ → ℚ) (tmax maxrate t : ℚ) (s : S) (n fuel : ℕ)
    (acc : List (ℚ × S)) (ht : t < tmax) (hmr : maxrate ≠ 0)
    (hnodup : ((f t s).map Prod.fst).Nodup)
    (q : S × ℚ) (qs : List (S × ℚ))
    (hkept : ((f t s).filter (fun p => 0 < p.2)).filter (fun p => p.2 < maxrate) = q :: qs) :
    ∃ s2 w, gillespieStep (rng n) (q :: qs) = some (s2, w) ∧
      (∃ r, (s2, r) ∈ q :: qs ∧ r < maxrate) ∧
      (∀ k rr, (k, rr) ∈ (f t s).filter (fun p => 0 < p.2) → maxrate ≤ rr → s2 ≠ k) ∧
      evo3Loop f tmax maxrate rng (fuel + 1) n t s acc
        = evo3Loop f tmax maxrate rng fuel (n + 1) (t + w) s2 (acc ++ [(t + w, s2)]) := by
  have hsub : ∀ p ∈ q :: qs, p ∈ (f t s).filter (fun p => 0 < p.2) ∧ p.2 < maxrate := by
    intro p hp
    rw [← hkept] at hp
    have h1 := List.mem_filter.mp hp
    refine ⟨h1.1, by simpa using h1.2⟩
  have hemp : ((f t s).filter (fun p => 0 < p.2)).isEmpty = false := by
    rcases h2 : (f t s).filter (fun p => 0 < p.2) with _ | ⟨a, l⟩
    · rw [h2] at hkept
      simp at hkept
    · rw [h2]
      rfl
  rcases gillespieStep_race (rng n) q qs with ⟨s2, w, hgs, ⟨r, hr, hw⟩, hmin⟩
  refine ⟨s2, w, hgs, ⟨r, hr, (hsub (s2, r) hr).2⟩, ?_, ?_⟩
  · intro k rr hkmem hge heq
    have hr2 : (s2, r) ∈ (f t s).filter (fun p => 0 < p.2) := (hsub (s2, r) hr).1
    have hkmem2 : (k, rr) ∈ f t s := (List.mem_filter.mp hkmem).1
    have hr3 : (s2, r) ∈ f t s := (List.mem_filter.mp hr2).1
    rw [heq] at hr3
    have : r = rr := keyUnique hnodup hr3 hkmem2
    have hlt : r < maxrate := (hsub (s2, r) hr).2
    rw [this] at hlt
    exact absurd hge (not_le.mpr hlt)
  · simp only [evo3Loop]
    rw [if_pos ht, if_neg (by rw [hemp]; simp), if_neg hmr, hkept, hgs]

/-- C10 witness: the filtered race at a concrete step with candidates
    (1 at rate 7) and (2 at rate 3) against ceiling 5: only the rate-3
    candidate races. -/
theorem maxrate_filter_before_race_witness :
    ((0 : ℚ) < 10 ∧ (5 : ℚ) ≠ 0 ∧
      (((fun _ _ => [((1 : ℤ), (7 : ℚ)), ((2 : ℤ), (3 : ℚ))]) (0 : ℚ) (0 : ℤ)).map
        Prod.fst).Nodup ∧
      (((fun _ _ => [((1 : ℤ), (7 : ℚ)), ((2 : ℤ), (3 : ℚ))]) (0 : ℚ) (0 : ℤ)).filter
          (fun p => 0 < p.2)).filter (fun p => p.2 < 5) = ((2 : ℤ), (3 : ℚ)) :: []) ∧
    (∃ s2 w, gillespieStep ((fun _ _ _ => (1 : ℚ)) (0 : ℕ)) (((2 : ℤ), (3 : ℚ)) :: [])
        = some (s2, w) ∧
      (∃ r, (s2, r) ∈ ((2 : ℤ), (3 : ℚ)) :: ([] : List (ℤ × ℚ)) ∧ r < 5) ∧
      (∀ k rr, (k, rr) ∈ ((fun _ _ => [((1 : ℤ), (7 : ℚ)), ((2 : ℤ), (3 : ℚ))]) (0 : ℚ)
          (0 : ℤ)).filter (fun p => 0 < p.2) → (5 : ℚ) ≤ rr → s2 ≠ k) ∧
      evo3Loop (fun _ _ => [((1 : ℤ), (7 : ℚ)), ((2 : ℤ), (3 : ℚ))]) 10 5
          (fun _ _ _ => (1 : ℚ)) (2 + 1) 0 0 (0 : ℤ) []
        = evo3Loop (fun _ _ => [((1 : ℤ), (7 : ℚ)), ((2 : ℤ), (3 : ℚ))]) 10 5
          (fun _ _ _ => (1 : ℚ)) 2 (0 + 1) (0 + w) s2 ([] ++ [(0 + w, s2)])) :=
  ⟨⟨by norm_num, by norm_num, by decide, by decide⟩,
   maxrate_filter_before_race (fun _ _ => [((1 : ℤ), (7 : ℚ)), ((2 : ℤ), (3 : ℚ))])
     (fun _ _ _ => (1 : ℚ)) 10 5 0 (0 : ℤ) 0 2 [] (by norm_num) (by norm_num) (by decide)
     ((2 : ℤ), (3 : ℚ)) [] (by decide)⟩

/-- C3 counterexample: the claim says the first trajectory entry is
    (t_min, state0).  The part_004 evolution called with ts = [1, 2]
    (t_min = 1) and state0 = 0 returns the trajectory [(0, 0)]: the
    source hardcodes the initial history entry as [0, state0], so the
    first entry has time 0, not t_min = 1. -/
theorem evolution4_initial_time_cex :
    evolution4 (fun _ _ => ([] : List (ℤ × ℚ))) [1, 2] (0 : ℤ) (fun _ _ _ => 1) 5
      = some ([((0 : ℚ), (0 : ℤ))], Halt.absorbed) ∧ (0 : ℚ) ≠ 1 := by
  constructor
  · rfl
  · norm_num

/-- C3 amended: with positive oracle draws (exponential variates have
    support (0, infinity)), the part_003 evolution returns a trajectory
    whose first entry is (t_min, state0) and whose time coordinates are
    strictly increasing; the part_004 evolution instead records its
    first entry at time 0 regardless of ts[0], and its time coordinates
    are strictly increasing provided ts[0] >= 0. -/
theorem evolution_trajectory_monotone_amended {S T : Type}
    (f : ℚ → S → List (S × ℚ)) (tmin tmax maxrate : ℚ) (s0 : S)
    (rng : ℕ → S → ℚ → ℚ) (fuel : ℕ) (hrng : ∀ n u c, 0 < rng n u c)
    (g : ℚ → T → List (T × ℚ)) (t0 : ℚ) (ts : List ℚ) (u0 : T)
    (rng2 : ℕ → T → ℚ → ℚ) (fuel2 : ℕ) (hrng2 : ∀ n u c, 0 < rng2 n u c)
    (ht0 : 0 ≤ t0) :
    ((evolution3 f tmin tmax s0 maxrate rng fuel).1.head? = some (tmin, s0) ∧
      List.Chain' (· < ·) ((evolution3 f tmin tmax s0 maxrate rng fuel).1.map Prod.fst)) ∧
    (∃ tr h2, evolution4 g (t0 :: ts) u0 rng2 fuel2 = some (tr, h2) ∧
      tr.head? = some (0, u0) ∧ List.Chain' (· < ·) (tr.map Prod.fst)) := by
  constructor
  · have h := evo3Loop_traj f tmax maxrate rng hrng fuel 0 tmin s0 [(tmin, s0)]
      (by simp) (by simp) (by simp)
    exact ⟨h.1, h.2⟩
  · refine ⟨(evo4Loop g ((t0 :: ts).getLastD t0) rng2 fuel2 0 t0 u0 [(0, u0)]).1,
      (evo4Loop g ((t0 :: ts).getLastD t0) rng2 fuel2 0 t0 u0 [(0, u0)]).2, rfl, ?_⟩
    have h := evo4Loop_traj g ((t0 :: ts).getLastD t0) rng2 hrng2 fuel2 0 t0 u0 [(0, u0)]
      (by simp) (by simp) (by simpa using ht0)
    exact ⟨h.1, h.2⟩

/-- C3 witness: the amended statement applied to concrete runs of both
    evolution variants. -/
theorem evolution_trajectory_monotone_amended_witness :
    ((∀ n : ℕ, ∀ u : ℤ, ∀ c : ℚ, 0 < (fun _ _ _ => (1 : ℚ)) n u c) ∧ (0 : ℚ) ≤ 1) ∧
    (((evolution3 (fun _ _ => ([] : List (ℤ × ℚ))) 3 9 (0 : ℤ) 0
        (fun _ _ _ => (1 : ℚ)) 4).1.head? = some (3, 0) ∧
      List.Chain' (· < ·) ((evolution3 (fun _ _ => ([] : List (ℤ × ℚ))) 3 9 (0 : ℤ) 0
        (fun _ _ _ => (1 : ℚ)) 4).1.map Prod.fst)) ∧
    (∃ tr h2, evolution4 (fun _ _ => ([] : List (ℤ × ℚ))) (1 :: [2]) (0 : ℤ)
        (fun _ _ _ => (1 : ℚ)) 4 = some (tr, h2) ∧
      tr.head? = some (0, 0) ∧ List.Chain' (· < ·) (tr.map Prod.fst))) :=
  ⟨⟨fun _ _ _ => one_pos, by norm_num⟩,
   evolution_trajectory_monotone_amended (fun _ _ => ([] : List (ℤ × ℚ))) 3 9 0 (0 : ℤ)
     (fun _ _ _ => (1 : ℚ)) 4 (fun _ _ _ => one_pos)
     (fun _ _ => ([] : List (ℤ × ℚ))) 1 [2] (0 : ℤ)
     (fun _ _ _ => (1 : ℚ)) 4 (fun _ _ _ => one_pos) (by norm_num)⟩

/-- C9: for the pure-decay transition function (state n decays to
    n - 1 at rate n, so the positive-rate map is empty exactly at
    state 0), a part_003 evolution run from any positive integer state
    m halts — not by fuel exhaustion — and the final state of the
    returned trajectory is exactly 0, provided the rates stay below the
    ceiling (m < maxrate), the draws are positive and bounded by δ, the
    time span covers the m jumps (t_min + m δ <= t_max) and the fuel
    covers the m jumps plus the final absorbing check. -/
theorem decay_absorption (m : ℕ) (hm : 1 ≤ m) (tmin tmax maxrate δ : ℚ)
    (rng : ℕ → ℤ → ℚ → ℚ) (fuel : ℕ) (hδ : 0 < δ)
    (hrng : ∀ n s c, 0 < rng n s c ∧ rng n s c ≤ δ)
    (hmr : (m : ℚ) < maxrate) (hfuel : m + 1 ≤ fuel) (ht : tmin + m * δ ≤ tmax) :
    (evolution3 decayFun tmin tmax (m : ℤ) maxrate rng fuel).2.2 ≠ Halt.fuelOut ∧
    ∃ t2, (evolution3 decayFun tmin tmax (m : ℤ) maxrate rng fuel).1.getLast?
        = some (t2, (0 : ℤ)) := by
  have h := decayLoop maxrate δ rng hδ hrng tmax m fuel 0 tmin [(tmin, (m : ℤ))]
    hmr hfuel ht
  refine ⟨h.1, ?_⟩
  rcases h.2.2 with ⟨hm0, _⟩ | ⟨_, t2, hlast⟩
  · omega
  · exact ⟨t2, hlast⟩

/-- C9 witness: the decay run from state 2 with unit draws reaching
    state 0 at time 2. -/
theorem decay_absorption_witness :
    ((1 : ℕ) ≤ 2 ∧ (0 : ℚ) < 1 ∧ ((2 : ℕ) : ℚ) < 100 ∧ (2 : ℕ) + 1 ≤ 3 ∧
      (0 : ℚ) + (2 : ℕ) * 1 ≤ 10) ∧
    ((evolution3 decayFun 0 10 ((2 : ℕ) : ℤ) 100 (fun _ _ _ => (1 : ℚ)) 3).2.2
        ≠ Halt.fuelOut ∧
      ∃ t2, (evolution3 decayFun 0 10 ((2 : ℕ) : ℤ) 100 (fun _ _ _ => (1 : ℚ)) 3).1.getLast?
          = some (t2, (0 : ℤ))) :=
  ⟨⟨by decide, by norm_num, by norm_num, by decide, by norm_num⟩,
   decay_absorption 2 (by decide) 0 10 100 1 (fun _ _ _ => (1 : ℚ)) 3 (by norm_num)
     (fun _ _ _ => ⟨one_pos, le_refl 1⟩) (by norm_num) (by decide) (by norm_num)⟩
